import Mathlib

/-!
Shallow embedding of the kongcue repository (schema generation, path policy,
two-pass validation orchestration, and flag resolution) together with proofs
about the claims of its specification.

Go strings are modelled as `List Char`; Go maps used by the schema generator
are modelled as association lists with Go's update ("assign to key") semantics.
Comment text attached to generated CUE AST nodes is kept as the raw help
strings (the fixed header-comment block is claim-irrelevant and omitted).
The CUE constraint engine, file loader and kong parser are external
collaborators; their results are modelled abstractly where the orchestration
code consumes them.
-/

namespace Kongcue

/-- Go strings, modelled as lists of characters. -/
abbrev Str := List Char

/-- Conversion from Lean string literals to the `Str` model. -/
def chars (s : String) : Str := s.toList

/-- Internal schema options struct (`schemaOptions` in schema.go): a list of
dotted paths where unknown fields are allowed, a global allow-all switch and
the permissive-types switch used by the first validation pass. -/
structure SchemaOptions where
  allowUnknownPaths : List Str
  allowAll : Bool
  permissiveTypes : Bool
deriving DecidableEq, Repr

/-- Translation of `schemaOptions.shouldAllowUnknown` (schema.go): unknown
fields are allowed at `path` when `allowAll` is set, when `path` equals one of
the allowed paths, or when `path` starts with an allowed path followed by a
dot (`strings.HasPrefix(path, allowed+".")`). -/
def shouldAllowUnknown (opts : SchemaOptions) (path : Str) : Bool :=
  if opts.allowAll then true
  else opts.allowUnknownPaths.any fun allowed =>
    path = allowed || (allowed ++ ['.']).isPrefixOf path

/-- First dotted component of a string: the Go idiom
`if idx := strings.Index(s, "."); idx != -1 { s[:idx] } else { s }`. -/
def firstComponent (s : Str) : Str := s.takeWhile (· ≠ '.')

/-- Translation of `schemaOptions.getAllowedFieldAtPath` (schema.go): the
field name to inject at `path` for allowed path `allowed`, or the empty
string when the allowed path does not apply at this level. -/
def getAllowedFieldAtPath (allowed path : Str) : Str :=
  if path = [] then firstComponent allowed
  else if (path ++ ['.']).isPrefixOf allowed then
    firstComponent (allowed.drop (path.length + 1))
  else []

/-- Translation of `kebabToSnake` (schema.go): replace every '-' by '_'. -/
def kebabToSnake (s : Str) : Str :=
  s.map fun c => if c = '-' then '_' else c

/-- Capitalisation of one word: `strings.ToUpper(w[:1]) + w[1:]`. -/
def capitalizeWord : Str → Str
  | [] => []
  | c :: cs => c.toUpper :: cs

/-- Translation of `pascalCase` (schema.go): turn '-' and '_' into spaces,
split into whitespace-separated fields, capitalise each and concatenate. -/
def pascalCase (s : Str) : Str :=
  let spaced := s.map fun c => if c = '-' ∨ c = '_' then ' ' else c
  let words := (spaced.splitOn ' ').filter (· ≠ [])
  (words.map capitalizeWord).flatten

/-- Translation of `commandDefName` (schema.go): join the command path with
underscores and convert to PascalCase. -/
def commandDefName (path : List Str) : Str :=
  pascalCase (List.intercalate ['_'] path)

/-- The dotted-path notion used by the specification: `path` is a strict
dotted descendant of `allowed` when it extends it by a dot and a remainder. -/
def StrictDottedDescendant (path allowed : Str) : Prop :=
  ∃ rest, path = allowed ++ '.' :: rest

/-- Characterisation of the boolean `isPrefixOf` used to model Go's
`strings.HasPrefix`. -/
theorem isPrefixOf_append_iff (pre s : Str) :
    pre.isPrefixOf s = true ↔ ∃ t, s = pre ++ t := by
  induction pre generalizing s with
  | nil => simp [List.isPrefixOf]
  | cons a pre ih =>
    cases s with
    | nil => simp [List.isPrefixOf]
    | cons b s =>
      constructor
      · intro h
        simp only [List.isPrefixOf, Bool.and_eq_true, beq_iff_eq] at h
        obtain ⟨t, ht⟩ := (ih s).mp h.2
        exact ⟨t, by rw [ht, h.1]; rfl⟩
      · rintro ⟨t, ht⟩
        injection ht with h1 h2
        simp [List.isPrefixOf, h1, (ih s).mpr ⟨t, h2⟩]

instance (path allowed : Str) : Decidable (StrictDottedDescendant path allowed) :=
  decidable_of_iff ((allowed ++ ['.']).isPrefixOf path) (by
    rw [isPrefixOf_append_iff]
    constructor
    · rintro ⟨t, ht⟩
      exact ⟨t, by simpa using ht⟩
    · rintro ⟨rest, hrest⟩
      exact ⟨rest, by simp [hrest]⟩)

/-- Primitive kinds observed through reflection (`reflect.Kind` as consumed
by `kindToType`): string, any integer width, any float width, bool, other. -/
inductive GoKind where
  | string | int | float | bool | other
deriving DecidableEq, Repr

/-- The flag-value shape dispatched on by `valueToType` (schema.go): the
checks `IsSlice`, `IsMap`, `IsCounter`, `IsBool` in that order, then the
reflected kind of the target. A slice carries its element kind
(`sliceElemType` on the target). -/
inductive KValue where
  | slice (elem : GoKind)
  | map
  | counter
  | bool
  | scalar (kind : GoKind)
deriving DecidableEq, Repr

/-- One kong flag as read by the generator: name, help, hidden and required
markers and the value shape. -/
structure KFlag where
  name : Str
  help : Str
  hidden : Bool
  required : Bool
  value : KValue
deriving DecidableEq, Repr

/-- Node types of the kong model; the generator only distinguishes command
nodes from everything else (`child.Type != kong.CommandNode`). -/
inductive NodeType where
  | command | other
deriving DecidableEq, Repr

/-- One node of the kong command tree: name, type, flags, children, help and
whether its target is the `ConfigDoc` command (`isConfigDocCommand`). -/
inductive KNode where
  | mk (name : Str) (ntype : NodeType) (flags : List KFlag) (children : List KNode)
      (help : Str) (configDoc : Bool)

/-- Name of a node. -/
def KNode.name : KNode → Str
  | .mk n _ _ _ _ _ => n

/-- Type of a node. -/
def KNode.ntype : KNode → NodeType
  | .mk _ t _ _ _ _ => t

/-- Flags of a node. -/
def KNode.flags : KNode → List KFlag
  | .mk _ _ f _ _ _ => f

/-- Children of a node. -/
def KNode.children : KNode → List KNode
  | .mk _ _ _ c _ _ => c

/-- Help text of a node. -/
def KNode.help : KNode → Str
  | .mk _ _ _ _ h _ => h

/-- Whether the node is the ConfigDoc command. -/
def KNode.configDoc : KNode → Bool
  | .mk _ _ _ _ _ d => d

/-- CUE type expressions produced by the type mapper: identifiers
(`string`, `int`, `number`, `bool`, `_`, `#Name`), ellipsis lists
`[...T]` and the empty struct used for map-valued flags. -/
inductive CueExpr where
  | ident (name : Str)
  | listOf (elem : CueExpr)
  | emptyStruct
deriving DecidableEq, Repr

/-- One generated CUE field: label, optional marker (`token.OPTION`), value
expression and attached comment lines (help text). -/
structure CueField where
  label : Str
  optional : Bool
  value : CueExpr
  comments : List Str
deriving DecidableEq, Repr

/-- Elements of a generated struct literal: fields and the `...` ellipsis
that marks a struct open. -/
inductive CueDecl where
  | field (f : CueField)
  | ellipsis
deriving DecidableEq, Repr

/-- Body of a top-level definition: either a plain struct literal (with an
ellipsis element when open) or a struct wrapped in `close(...)`. -/
inductive TopExpr where
  | plain (elts : List CueDecl)
  | closed (elts : List CueDecl)
deriving DecidableEq, Repr

/-- One top-level declaration of the generated file: a `#Name` label and its
body. -/
structure TopDecl where
  label : Str
  value : TopExpr
deriving DecidableEq, Repr

/-- Translation of `kindToType` (schema.go). -/
def kindToType : GoKind → CueExpr
  | .string => .ident (chars "string")
  | .int => .ident (chars "int")
  | .float => .ident (chars "number")
  | .bool => .ident (chars "bool")
  | .other => .ident (chars "_")

/-- Translation of `valueToType` (schema.go): slices map to ellipsis lists of
the element type, maps to the empty struct, counters to int, booleans to
bool, and other targets through the reflected kind. -/
def valueToType : KValue → CueExpr
  | .slice elem => .listOf (kindToType elem)
  | .map => .emptyStruct
  | .counter => .ident (chars "int")
  | .bool => .ident (chars "bool")
  | .scalar k => kindToType k

/-- The flag filter used throughout schema generation: hidden flags and the
reserved `config`, `help` and `help-all` flags never appear in the schema. -/
def skipFlag (f : KFlag) : Bool :=
  f.hidden || f.name = chars "config" || f.name = chars "help"
    || f.name = chars "help-all"

/-- Construction of the CUE field for one flag, shared by `buildFlagsStruct`
and `buildRootWithReferences`: snake-converted label, the mapped type (or `_`
under permissive types), the optional marker unless the flag is required, and
the help text as a comment. -/
def mkFlagField (opts : SchemaOptions) (f : KFlag) : CueField :=
  { label := kebabToSnake f.name
    optional := !f.required
    value := if opts.permissiveTypes then .ident (chars "_") else valueToType f.value
    comments := if f.help ≠ [] then [f.help] else [] }

/-- Translation of `buildFlagsStruct` (schema.go): the flag fields of one
node, with hidden and reserved flags skipped. -/
def buildFlagsStruct (node : KNode) (opts : SchemaOptions) : List CueDecl :=
  node.flags.filterMap fun f =>
    if skipFlag f then none else some (.field (mkFlagField opts f))

/-- Labels of the field declarations of a struct body (the `existingFields`
set computed before synthetic fields are added). -/
def fieldLabels (elts : List CueDecl) : List Str :=
  elts.filterMap fun d =>
    match d with
    | .field f => some f.label
    | .ellipsis => none

/-- A synthetic open placeholder field for an allowed-unknown path segment. -/
def syntheticField (name : Str) : CueField :=
  { label := name, optional := true, value := .ident (chars "_"), comments := [] }

/-- The synthetic-field loop shared by `collectCommandDefinitions` and
`buildRootWithReferences`: walk the allowed paths in order, compute the field
to inject at `dotPath` and append it unless the name is empty or already
present, extending the existing-field set as fields are added. -/
def addSyntheticFields (elts : List CueDecl) (dotPath : Str)
    (opts : SchemaOptions) : List CueDecl :=
  (opts.allowUnknownPaths.foldl
    (fun (acc : List CueDecl × List Str) allowed =>
      let fieldName := getAllowedFieldAtPath allowed dotPath
      if fieldName ≠ [] ∧ fieldName ∉ acc.2 then
        (acc.1 ++ [.field (syntheticField fieldName)], fieldName :: acc.2)
      else acc)
    (elts, fieldLabels elts)).1

/-- A command definition as stored in the definitions map (`commandDef` in
schema.go): the struct body and the dotted config path of the command. -/
structure CommandDef where
  elts : List CueDecl
  path : Str
deriving DecidableEq, Repr

/-- The reference fields a command definition holds for its own command
children (grandchildren of the enclosing traversal), skipping non-command
nodes and ConfigDoc. -/
def childRefFields (children : List KNode) (childPath : List Str) : List CueDecl :=
  children.filterMap fun g =>
    if g.ntype = NodeType.command ∧ ¬g.configDoc then
      some (.field
        { label := g.name
          optional := true
          value := .ident ('#' :: commandDefName (childPath ++ [g.name]))
          comments := if g.help ≠ [] then [g.help] else [] })
    else none

/-- The struct body and path registered for one command by
`collectCommandDefinitions`: its own flags, references to nested command
definitions, then synthetic allowed-unknown fields. -/
def buildCommandDef (child : KNode) (childPath : List Str)
    (opts : SchemaOptions) : CommandDef :=
  let dotPath := List.intercalate ['.'] childPath
  let structLit := buildFlagsStruct child opts ++ childRefFields child.children childPath
  { elts := addSyntheticFields structLit dotPath opts, path := dotPath }

/-- Go maps from strings, as association lists. -/
abbrev GoMap (β : Type) := List (Str × β)

/-- Lookup in a Go map. -/
def mapFind {β : Type} : GoMap β → Str → Option β
  | [], _ => none
  | (k', v) :: m, k => if k' = k then some v else mapFind m k

/-- Go's `m[k] = v`: replace the binding in place when the key is present,
otherwise add a new binding. -/
def mapInsert {β : Type} : GoMap β → Str → β → GoMap β
  | [], k, v => [(k, v)]
  | (k', v') :: m, k, v =>
    if k' = k then (k, v) :: m else (k', v') :: mapInsert m k v

mutual
/-- Translation of `collectCommandDefinitions` (schema.go): walk the node's
command children in order; for each command child (skipping ConfigDoc)
register its definition under its computed PascalCase name — overwriting any
existing binding of that name — and recurse into the child before moving on. -/
def collectCommandDefinitions :
    KNode → List Str → GoMap CommandDef → SchemaOptions → GoMap CommandDef
  | KNode.mk _ _ _ ch _ _, path, defs, opts => collectChildren ch path defs opts

/-- The loop body of `collectCommandDefinitions` over the list of children. -/
def collectChildren :
    List KNode → List Str → GoMap CommandDef → SchemaOptions → GoMap CommandDef
  | [], _, defs, _ => defs
  | child :: rest, path, defs, opts =>
    if child.ntype = NodeType.command ∧ ¬child.configDoc then
      let childPath := path ++ [child.name]
      let defs1 := mapInsert defs (commandDefName childPath)
        (buildCommandDef child childPath opts)
      let defs2 := collectCommandDefinitions child childPath defs1 opts
      collectChildren rest path defs2 opts
    else collectChildren rest path defs opts
end

/-- Translation of `buildRootWithReferences` (schema.go): the root flags,
references to the root's command children, then synthetic allowed-unknown
fields at the root path (the empty string). -/
def buildRootWithReferences (node : KNode) (opts : SchemaOptions) : List CueDecl :=
  addSyntheticFields
    (buildFlagsStruct node opts ++ childRefFields node.children []) [] opts

/-- Translation of `sortedKeys` (schema.go): the keys of the map in sorted
order, using the lexicographic order on strings. -/
def sortedKeys {β : Type} (m : GoMap β) : List Str :=
  (m.map Prod.fst).insertionSort (· ≤ ·)

/-- Body of one emitted definition: open (ellipsis appended) when unknown
fields are allowed at its path, otherwise wrapped in `close(...)`. -/
def defBody (opts : SchemaOptions) (path : Str) (elts : List CueDecl) : TopExpr :=
  if shouldAllowUnknown opts path then .plain (elts ++ [.ellipsis])
  else .closed elts

/-- Emission of the file from the root node and a definitions map: the root
definition first, then the command definitions in sorted name order. -/
def emitSchemaFile (root : KNode) (defs : GoMap CommandDef)
    (opts : SchemaOptions) : List TopDecl :=
  { label := chars "#Root"
    value := defBody opts [] (buildRootWithReferences root opts) } ::
  (sortedKeys defs).filterMap fun name =>
    (mapFind defs name).map fun d =>
      { label := '#' :: name, value := defBody opts d.path d.elts }

/-- Translation of `GenerateSchemaFile` (schema.go): collect all command
definitions, then emit the root definition followed by the collected
definitions in sorted name order. -/
def GenerateSchemaFile (root : KNode) (opts : SchemaOptions) : List TopDecl :=
  emitSchemaFile root (collectCommandDefinitions root [] [] opts) opts

/-- Values of the in-memory configuration document as consumed by the
resolver through the CUE engine primitives (`Bool`, `Int64`, `String`,
`List`, `LookupPath`). -/
inductive CueVal where
  | bool (b : Bool)
  | int (i : Int)
  | str (s : Str)
  | list (xs : List CueVal)
  | record (fields : List (Str × CueVal))
  | null

/-- The engine primitive `Value.Bool`: succeeds only on booleans. -/
def asBool : CueVal → Option Bool
  | .bool b => some b
  | _ => none

/-- The engine primitive `Value.Int64`: succeeds only on integers that fit a
signed 64-bit machine word. -/
def asInt64 : CueVal → Option Int
  | .int i => if -(2 ^ 63) ≤ i ∧ i < 2 ^ 63 then some i else none
  | _ => none

/-- The engine primitive `Value.String`: succeeds only on strings. -/
def asString : CueVal → Option Str
  | .str s => some s
  | _ => none

/-- The engine primitive `Value.List`: succeeds only on lists. -/
def asList : CueVal → Option (List CueVal)
  | .list xs => some xs
  | _ => none

/-- Primitive Go values handed back to kong by the resolver. -/
inductive GoVal where
  | bool (b : Bool)
  | int (i : Int)
  | str (s : Str)
deriving DecidableEq, Repr

/-- Translation of `extractValue` (resolver code): for slice-expecting flags
read the value as a list and join the string elements with a comma (elements
whose `String()` extraction fails are skipped, an empty result is no
override, a single element is returned on its own); a non-list value falls
back to plain string extraction. For other flags try boolean (true is an
override, false is not), then 64-bit integer (only strictly positive values
override), then string (only non-empty strings override). -/
def extractValue (val : CueVal) (isSlice : Bool) : Option GoVal :=
  if isSlice then
    match asList val with
    | some xs =>
      match xs.filterMap asString with
      | [] => none
      | [item] => some (.str item)
      | items => some (.str (List.intercalate [','] items))
    | none =>
      match asString val with
      | some s => some (.str s)
      | none => none
  else
    match asBool val with
    | some b => if b then some (.bool true) else none
    | none =>
      match asInt64 val with
      | some i => if i > 0 then some (.int i) else none
      | none =>
        match asString val with
        | some s => if s ≠ [] then some (.str s) else none
        | none => none

/-- The engine's `LookupPath` on an already-split selector path: walk the
record fields segment by segment. -/
def lookupSegs : CueVal → List Str → Option CueVal
  | v, [] => some v
  | .record fields, seg :: rest =>
    match mapFind fields seg with
    | some v => lookupSegs v rest
    | none => none
  | _, _ :: _ => none

/-- The dotted lookup path computed by `cueResolver.Resolve`: the flag name
converted to snake case, prefixed by the command path when not at root. -/
def resolverPath (cmdPath : List Str) (flagName : Str) : Str :=
  if cmdPath = [] then kebabToSnake flagName
  else List.intercalate ['.'] (cmdPath ++ [kebabToSnake flagName])

/-- Translation of `cueResolver.Resolve`: build the dotted path, look it up
in the bound document (splitting it into selectors as `cue.ParsePath` does),
return no override when the path is absent, and extract the value otherwise. -/
def Resolve (doc : CueVal) (cmdPath : List Str) (flagName : Str)
    (isSlice : Bool) : Option GoVal :=
  match lookupSegs doc ((resolverPath cmdPath flagName).splitOn '.') with
  | none => none
  | some val => extractValue val isSlice

/-- Validation-pass and loading outcomes delivered by the external engine
while `Config.BeforeResolve` runs, kept abstract: the load result, whether
the loaded document has any field, the two schema-generation results, the
outcome of validating the document against the permissive schema, the
outcome of validating the document unified with the strict schema under
`cue.Concrete(true)`, and the raw and unified documents themselves. -/
structure EngineOutcome where
  loadResult : Option Str
  hasConfig : Bool
  genStrict : Option Str
  genPermissive : Option Str
  permissiveValidate : Option Str
  strictValidate : Option Str
  rawDoc : CueVal
  mergedDoc : CueVal

/-- Observable outcome of the pre-resolution hook: a load error, a resolver
over the raw document when no config was found (no validation), a
schema-generation error, the aggregated validation failure list (no document
bound, no resolver installed), or a successful bind of the unified document. -/
inductive ResolveSetup where
  | loadError (e : Str)
  | rawResolver (doc : CueVal)
  | genError (e : Str)
  | validationFailure (errs : List Str)
  | bound (doc : CueVal)

/-- Translation of `Config.BeforeResolve` (resolver code): load the files;
with no config present install a resolver over the raw value and skip
validation; generate the strict schema; unless unknown fields are allowed
everywhere generate the permissive schema and collect its validation
failure; collect the strict concrete validation failure; on any collected
failure return them aggregated (first pass first) without binding; otherwise
bind the unified document and install the resolver over it. Error-text
filtering (`filterErrorDetails`) is cosmetic and not modelled. -/
def BeforeResolve (opts : SchemaOptions) (e : EngineOutcome) : ResolveSetup :=
  match e.loadResult with
  | some err => .loadError err
  | none =>
    if ¬e.hasConfig then .rawResolver e.rawDoc
    else
      match e.genStrict with
      | some err => .genError err
      | none =>
        if opts.allowAll then
          match e.strictValidate.toList with
          | [] => .bound e.mergedDoc
          | errs => .validationFailure errs
        else
          match e.genPermissive with
          | some err => .genError err
          | none =>
            match e.permissiveValidate.toList ++ e.strictValidate.toList with
            | [] => .bound e.mergedDoc
            | errs => .validationFailure errs

mutual
/-- Preorder enumeration of the (name, definition) pairs that
`collectCommandDefinitions` registers under a node, in the order it registers
them. -/
def enumDefs : KNode → List Str → SchemaOptions → List (Str × CommandDef)
  | KNode.mk _ _ _ ch _ _, path, opts => enumChildren ch path opts

/-- Preorder enumeration over a list of children. -/
def enumChildren : List KNode → List Str → SchemaOptions → List (Str × CommandDef)
  | [], _, _ => []
  | child :: rest, path, opts =>
    if child.ntype = NodeType.command ∧ ¬child.configDoc then
      let childPath := path ++ [child.name]
      (commandDefName childPath, buildCommandDef child childPath opts)
        :: (enumDefs child childPath opts ++ enumChildren rest path opts)
    else enumChildren rest path opts
end

/-- Value bound to a key by the last matching pair of an association list. -/
def lastAssoc {β : Type} (k : Str) : List (Str × β) → Option β
  | [] => none
  | (k', v) :: l => (lastAssoc k l).or (if k' = k then some v else none)

theorem lastAssoc_append {β : Type} (k : Str) (l₁ l₂ : List (Str × β)) :
    lastAssoc k (l₁ ++ l₂) = (lastAssoc k l₂).or (lastAssoc k l₁) := by
  induction l₁ with
  | nil => simp [lastAssoc]
  | cons p l₁ ih => cases p; simp [lastAssoc, ih, Option.or_assoc]

theorem mapFind_mapInsert {β : Type} (m : GoMap β) (k : Str) (v : β) (k' : Str) :
    mapFind (mapInsert m k v) k' = if k = k' then some v else mapFind m k' := by
  induction m with
  | nil => simp [mapInsert, mapFind]
  | cons p m ih =>
    obtain ⟨k₀, v₀⟩ := p
    by_cases h0 : k₀ = k
    · subst h0
      by_cases hk : k₀ = k' <;> simp [mapInsert, mapFind, hk]
    · have h0' : ¬k = k₀ := fun h => h0 h.symm
      by_cases hk0 : k₀ = k'
      · subst hk0
        simp [mapInsert, mapFind, h0, h0', ih]
      · simp [mapInsert, mapFind, h0, hk0, ih]

theorem mapFind_foldl_insert {β : Type} (l : List (Str × β)) (m : GoMap β) (k : Str) :
    mapFind (l.foldl (fun acc p => mapInsert acc p.1 p.2) m) k
      = (lastAssoc k l).or (mapFind m k) := by
  induction l generalizing m with
  | nil => simp [lastAssoc]
  | cons p l ih =>
    cases p with
    | mk k₀ v₀ =>
      simp only [List.foldl_cons, ih, lastAssoc, Option.or_assoc]
      congr 1
      rw [mapFind_mapInsert]
      by_cases hk : k₀ = k <;> simp [hk]

theorem collectChildren_eq_foldl (nodes : List KNode) (path : List Str)
    (defs : GoMap CommandDef) (opts : SchemaOptions) :
    collectChildren nodes path defs opts
      = (enumChildren nodes path opts).foldl (fun acc p => mapInsert acc p.1 p.2) defs := by
  induction nodes, path, defs, opts using collectChildren.induct with
  | motive_1 n path defs opts =>
    exact collectCommandDefinitions n path defs opts
      = (enumDefs n path opts).foldl (fun acc p => mapInsert acc p.1 p.2) defs
  | case1 nm tp fl ch hp cd path defs opts ih =>
    rw [collectCommandDefinitions, enumDefs]
    exact ih
  | case2 path defs opts => simp [collectChildren, enumChildren]
  | case3 child rest path defs opts h childPath defs1 defs2 ih1 ih2 =>
    simp only [childPath, defs1, defs2] at ih1 ih2 ⊢
    rw [collectChildren, enumChildren, if_pos h, if_pos h,
      List.foldl_cons, List.foldl_append]
    rw [ih2, ih1]
  | case4 child rest path defs opts h ih =>
    rw [collectChildren, enumChildren, if_neg h, if_neg h]
    exact ih

theorem collectCommandDefinitions_eq_foldl (n : KNode) (path : List Str)
    (defs : GoMap CommandDef) (opts : SchemaOptions) :
    collectCommandDefinitions n path defs opts
      = (enumDefs n path opts).foldl (fun acc p => mapInsert acc p.1 p.2) defs := by
  cases n
  rw [collectCommandDefinitions, enumDefs]
  exact collectChildren_eq_foldl _ _ _ _

theorem mem_keys_mapInsert {β : Type} (m : GoMap β) (k : Str) (v : β) (a : Str) :
    a ∈ (mapInsert m k v).map Prod.fst ↔ a ∈ m.map Prod.fst ∨ a = k := by
  induction m with
  | nil => simp [mapInsert]
  | cons p m ih =>
    obtain ⟨k₀, v₀⟩ := p
    by_cases h0 : k₀ = k
    · subst h0
      rw [mapInsert, if_pos rfl]
      simp only [List.map_cons, List.mem_cons, ih]
      tauto
    · rw [mapInsert, if_neg h0]
      simp only [List.map_cons, List.mem_cons, ih]
      tauto

theorem nodupKeys_mapInsert {β : Type} (m : GoMap β) (k : Str) (v : β)
    (h : (m.map Prod.fst).Nodup) : ((mapInsert m k v).map Prod.fst).Nodup := by
  induction m with
  | nil => simp [mapInsert]
  | cons p m ih =>
    obtain ⟨k₀, v₀⟩ := p
    simp only [List.map_cons, List.nodup_cons] at h
    by_cases h0 : k₀ = k
    · subst h0
      rw [mapInsert, if_pos rfl]
      simp only [List.map_cons, List.nodup_cons]
      exact h
    · rw [mapInsert, if_neg h0]
      simp only [List.map_cons, List.nodup_cons]
      refine ⟨?_, ih h.2⟩
      rw [mem_keys_mapInsert]
      rintro (hmem | rfl)
      · exact h.1 hmem
      · exact h0 rfl

theorem nodupKeys_collectChildren (nodes : List KNode) (path : List Str)
    (defs : GoMap CommandDef) (opts : SchemaOptions) :
    (defs.map Prod.fst).Nodup →
    ((collectChildren nodes path defs opts).map Prod.fst).Nodup := by
  induction nodes, path, defs, opts using collectChildren.induct with
  | motive_1 n path defs opts =>
    exact (defs.map Prod.fst).Nodup →
      ((collectCommandDefinitions n path defs opts).map Prod.fst).Nodup
  | case1 nm tp fl ch hp cd path defs opts ih =>
    intro h
    rw [collectCommandDefinitions]
    exact ih h
  | case2 path defs opts =>
    intro h
    simpa [collectChildren]
  | case3 child rest path defs opts hc childPath defs1 defs2 ih1 ih2 =>
    intro h
    simp only [childPath, defs1, defs2] at ih1 ih2 ⊢
    rw [collectChildren, if_pos hc]
    exact ih2 (ih1 (nodupKeys_mapInsert _ _ _ h))
  | case4 child rest path defs opts hc ih =>
    intro h
    rw [collectChildren, if_neg hc]
    exact ih h

theorem nodupKeys_collect (n : KNode) (path : List Str)
    (defs : GoMap CommandDef) (opts : SchemaOptions)
    (h : (defs.map Prod.fst).Nodup) :
    ((collectCommandDefinitions n path defs opts).map Prod.fst).Nodup := by
  cases n
  rw [collectCommandDefinitions]
  exact nodupKeys_collectChildren _ _ _ _ h

theorem mapFind_of_perm {β : Type} {m m' : GoMap β} (h : m.Perm m')
    (hn : (m.map Prod.fst).Nodup) (k : Str) : mapFind m k = mapFind m' k := by
  induction h with
  | nil => rfl
  | cons p h ih =>
    obtain ⟨k₀, v₀⟩ := p
    simp only [List.map_cons, List.nodup_cons] at hn
    simp [mapFind, ih hn.2]
  | swap p q l =>
    obtain ⟨k₁, v₁⟩ := p
    obtain ⟨k₂, v₂⟩ := q
    simp only [List.map_cons, List.nodup_cons, List.mem_cons] at hn
    simp only [mapFind]
    by_cases h1 : k₁ = k <;> by_cases h2 : k₂ = k
    · exact absurd (h2.trans h1.symm) (fun he => hn.1 (Or.inl he))
    · simp [h1, h2]
    · simp [h1, h2]
    · simp [h1, h2]
  | trans h₁ h₂ ih₁ ih₂ =>
    rw [ih₁ hn, ih₂ (((h₁.map Prod.fst).nodup_iff).mp hn)]

theorem mem_keys_isSome {β : Type} (m : GoMap β) (k : Str)
    (h : k ∈ m.map Prod.fst) : (mapFind m k).isSome := by
  induction m with
  | nil => simp at h
  | cons p m ih =>
    obtain ⟨k₀, v₀⟩ := p
    by_cases h0 : k₀ = k
    · simp [mapFind, h0]
    · simp only [List.map_cons, List.mem_cons] at h
      rcases h with h | h
      · exact absurd h.symm h0
      · simpa [mapFind, h0] using ih h

theorem addSyntheticFields_extends (elts : List CueDecl) (dotPath : Str)
    (opts : SchemaOptions) :
    ∃ extra, addSyntheticFields elts dotPath opts = elts ++ extra := by
  unfold addSyntheticFields
  suffices h : ∀ (l : List Str) (acc : List CueDecl × List Str),
      ∃ extra,
        (l.foldl (fun acc allowed =>
          let fieldName := getAllowedFieldAtPath allowed dotPath
          if fieldName ≠ [] ∧ fieldName ∉ acc.2 then
            (acc.1 ++ [.field (syntheticField fieldName)], fieldName :: acc.2)
          else acc) acc).1 = acc.1 ++ extra by
    exact h opts.allowUnknownPaths (elts, fieldLabels elts)
  intro l
  induction l with
  | nil => exact fun acc => ⟨[], by simp⟩
  | cons a l ih =>
    intro acc
    simp only [List.foldl_cons]
    by_cases hc : getAllowedFieldAtPath a dotPath ≠ [] ∧ getAllowedFieldAtPath a dotPath ∉ acc.2
    · obtain ⟨extra, he⟩ := ih
        (acc.1 ++ [.field (syntheticField (getAllowedFieldAtPath a dotPath))],
          getAllowedFieldAtPath a dotPath :: acc.2)
      refine ⟨.field (syntheticField (getAllowedFieldAtPath a dotPath)) :: extra, ?_⟩
      simp only [if_pos hc] at *
      rw [he]
      simp
    · obtain ⟨extra, he⟩ := ih acc
      refine ⟨extra, ?_⟩
      simp only [if_neg hc]
      exact he

theorem strictDottedDescendant_iff (path allowed : Str) :
    (allowed ++ ['.']).isPrefixOf path = true ↔ StrictDottedDescendant path allowed := by
  rw [isPrefixOf_append_iff]
  constructor
  · rintro ⟨t, ht⟩
    exact ⟨t, by simpa using ht⟩
  · rintro ⟨rest, hrest⟩
    exact ⟨rest, by simp [hrest]⟩

theorem strictDottedDescendant_prefix_iff (path allowed : Str) :
    StrictDottedDescendant path allowed ↔ allowed ++ ['.'] <+: path := by
  constructor
  · rintro ⟨rest, hrest⟩
    exact ⟨rest, by simp [hrest]⟩
  · rintro ⟨t, ht⟩
    exact ⟨t, by simpa using ht.symm⟩

/-- The specification's notion for C7: `rest` is what remains of the allowed
path beyond the current definition path when the allowed path strictly
extends it — everything of `allowed` at the root, and the part after the
separating dot elsewhere. -/
def ExtendsBeyond (allowed path rest : Str) : Prop :=
  (path = [] ∧ rest = allowed ∧ allowed ≠ []) ∨
  (path ≠ [] ∧ allowed = path ++ '.' :: rest)

/-- C5: `shouldAllowUnknown` returns true if and only if the allow-everywhere
flag is set, or the path equals one of the allowed prefixes, or the path is a
strict dotted descendant of one of them; and when allow-everywhere is set the
prefix set has no effect on the result. -/
theorem shouldAllowUnknown_spec (opts : SchemaOptions) (path : Str) :
    (shouldAllowUnknown opts path = true ↔
      opts.allowAll = true ∨ ∃ a ∈ opts.allowUnknownPaths,
        path = a ∨ StrictDottedDescendant path a) ∧
    (opts.allowAll = true → ∀ ps,
      shouldAllowUnknown { opts with allowUnknownPaths := ps } path
        = shouldAllowUnknown opts path) := by
  constructor
  · by_cases ha : opts.allowAll
    · simp [shouldAllowUnknown, ha]
    · simp [shouldAllowUnknown, ha, List.any_eq_true, strictDottedDescendant_prefix_iff]
  · intro ha ps
    simp [shouldAllowUnknown, ha]

/-- Witness for C5 at a concrete input: with allow-everywhere set, replacing
the prefix set by the empty set does not change the result. -/
theorem shouldAllowUnknown_spec_witness :
    shouldAllowUnknown ⟨[], true, false⟩ (chars "x")
      = shouldAllowUnknown ⟨[chars "agent"], true, false⟩ (chars "x") :=
  (shouldAllowUnknown_spec ⟨[chars "agent"], true, false⟩ (chars "x")).2 rfl []

/-- C7: for an allowed prefix and the dotted path of the definition being
built, the synthetic-field computation returns the empty string (none) when
the prefix equals the path exactly, returns exactly the first segment of the
remaining part when the prefix strictly extends the path (even when several
segments remain), and returns the empty string when the prefix is unrelated
to the path. -/
theorem getAllowedFieldAtPath_spec (allowed path : Str) :
    (allowed = path → getAllowedFieldAtPath allowed path = []) ∧
    (∀ rest, ExtendsBeyond allowed path rest →
      getAllowedFieldAtPath allowed path = firstComponent rest) ∧
    ((¬∃ rest, ExtendsBeyond allowed path rest) → allowed ≠ path →
      getAllowedFieldAtPath allowed path = []) := by
  by_cases hp : path = []
  · subst hp
    refine ⟨?_, ?_, ?_⟩
    · rintro rfl
      rfl
    · rintro rest (⟨-, rfl, -⟩ | ⟨hne, -⟩)
      · simp [getAllowedFieldAtPath]
      · exact absurd rfl hne
    · intro hnex hne2
      exact absurd ⟨allowed, Or.inl ⟨rfl, rfl, hne2⟩⟩ hnex
  · have hlen : ∀ t : Str, ¬((path ++ ['.']).isPrefixOf t = true) ∨
        ∃ u, t = path ++ '.' :: u := by
      intro t
      by_cases hpre : (path ++ ['.']).isPrefixOf t = true
      · right
        obtain ⟨u, hu⟩ := (isPrefixOf_append_iff _ _).mp hpre
        exact ⟨u, by simpa using hu⟩
      · exact Or.inl hpre
    refine ⟨?_, ?_, ?_⟩
    · intro he
      subst he
      have hno : ¬((allowed ++ ['.']).isPrefixOf allowed = true) := by
        intro hpre
        obtain ⟨t, ht⟩ := (isPrefixOf_append_iff _ _).mp hpre
        have hl := congrArg List.length ht
        simp only [List.length_append, List.length_cons, List.length_nil] at hl
        omega
      simp [getAllowedFieldAtPath, hp, hno]
    · rintro rest (⟨h, -⟩ | ⟨-, rfl⟩)
      · exact absurd h hp
      · have hpre : (path ++ ['.']).isPrefixOf (path ++ '.' :: rest) = true := by
          rw [isPrefixOf_append_iff]
          exact ⟨rest, by simp⟩
        rw [getAllowedFieldAtPath, if_neg hp, if_pos hpre]
        congr 1
        have h1 : path ++ '.' :: rest = (path ++ ['.']) ++ rest := by simp
        have h2 : path.length + 1 = (path ++ ['.']).length := by simp
        rw [h1, h2]
        exact List.drop_left _ _
    · intro hnex hne2
      rcases hlen allowed with hno | ⟨u, hu⟩
      · simp [getAllowedFieldAtPath, hp, hno]
      · exact absurd ⟨u, Or.inr ⟨hp, hu⟩⟩ hnex

/-- Witness for C7 at a concrete input: allowed prefix `foo.bar.baz` at
definition path `foo` injects only the single next segment `bar`. -/
theorem getAllowedFieldAtPath_spec_witness :
    getAllowedFieldAtPath (chars "foo.bar.baz") (chars "foo")
      = firstComponent (chars "bar.baz") :=
  (getAllowedFieldAtPath_spec (chars "foo.bar.baz") (chars "foo")).2.1
    (chars "bar.baz") (Or.inr ⟨by decide, by decide⟩)

/-- C8: a flag declared required never receives the optional marker — its
generated field carries `optional = false` and is present as such in the flag
struct, in the root definition and in any command definition built for its
node. -/
theorem requiredFlag_never_optional (opts : SchemaOptions) (node : KNode)
    (childPath : List Str) (f : KFlag)
    (hmem : f ∈ node.flags) (hskip : skipFlag f = false) (hreq : f.required = true) :
    (mkFlagField opts f).optional = false ∧
    CueDecl.field (mkFlagField opts f) ∈ buildFlagsStruct node opts ∧
    CueDecl.field (mkFlagField opts f) ∈ buildRootWithReferences node opts ∧
    CueDecl.field (mkFlagField opts f) ∈ (buildCommandDef node childPath opts).elts := by
  have hbase : CueDecl.field (mkFlagField opts f) ∈ buildFlagsStruct node opts :=
    List.mem_filterMap.mpr ⟨f, hmem, by simp [hskip]⟩
  refine ⟨by simp [mkFlagField, hreq], hbase, ?_, ?_⟩
  · obtain ⟨extra, he⟩ := addSyntheticFields_extends
      (buildFlagsStruct node opts ++ childRefFields node.children []) [] opts
    rw [buildRootWithReferences, he]
    exact List.mem_append_left _ (List.mem_append_left _ hbase)
  · obtain ⟨extra, he⟩ := addSyntheticFields_extends
      (buildFlagsStruct node opts ++ childRefFields node.children childPath)
      (List.intercalate ['.'] childPath) opts
    show CueDecl.field (mkFlagField opts f) ∈ addSyntheticFields
      (buildFlagsStruct node opts ++ childRefFields node.children childPath)
      (List.intercalate ['.'] childPath) opts
    rw [he]
    exact List.mem_append_left _ (List.mem_append_left _ hbase)

/-- Concrete required flag used by witnesses: `ca-url`, required string. -/
def caUrlFlag : KFlag :=
  { name := chars "ca-url", help := chars "URL of the CA", hidden := false,
    required := true, value := .scalar .string }

/-- Concrete optional list flag used by witnesses: `match`. -/
def matchFlag : KFlag :=
  { name := chars "match", help := [], hidden := false,
    required := false, value := .slice .string }

/-- Concrete `agent` command node used by witnesses. -/
def agentNode : KNode :=
  .mk (chars "agent") .command [caUrlFlag, matchFlag] [] (chars "run the agent") false

/-- Concrete application root used by witnesses: a root `log-file` flag and
the `agent` command. -/
def exTree : KNode :=
  .mk [] .other
    [{ name := chars "log-file", help := [], hidden := false,
       required := false, value := .scalar .string }]
    [agentNode] [] false

/-- Default options value used by witnesses. -/
def opts0 : SchemaOptions := ⟨[], false, false⟩

/-- Witness for C8 at a concrete input: the required `ca-url` flag of the
`agent` command yields a non-optional field present in the generated
structures. -/
theorem requiredFlag_never_optional_witness :
    (mkFlagField opts0 caUrlFlag).optional = false ∧
    CueDecl.field (mkFlagField opts0 caUrlFlag) ∈ buildFlagsStruct agentNode opts0 ∧
    CueDecl.field (mkFlagField opts0 caUrlFlag) ∈ buildRootWithReferences agentNode opts0 ∧
    CueDecl.field (mkFlagField opts0 caUrlFlag)
      ∈ (buildCommandDef agentNode [chars "agent"] opts0).elts :=
  requiredFlag_never_optional opts0 agentNode [chars "agent"] caUrlFlag
    (by simp [agentNode, KNode.flags]) (by decide) (by decide)

theorem extractValue_bool (b : Bool) :
    extractValue (.bool b) false = if b then some (.bool true) else none := by
  cases b <;> simp [extractValue, asBool]

theorem extractValue_int (i : Int) :
    extractValue (.int i) false
      = if (-(2 ^ 63) ≤ i ∧ i < 2 ^ 63) ∧ 0 < i then some (.int i) else none := by
  have h1 : extractValue (.int i) false
      = (match (if -(2 ^ 63) ≤ i ∧ i < 2 ^ 63 then some i else none : Option Int) with
         | some j => if j > 0 then some (GoVal.int j) else none
         | none => none) := rfl
  by_cases hr : -(2 ^ 63) ≤ i ∧ i < 2 ^ 63
  · rw [h1, if_pos hr]
    show (if i > 0 then some (GoVal.int i) else none)
        = if (-(2 ^ 63) ≤ i ∧ i < 2 ^ 63) ∧ 0 < i then some (GoVal.int i) else none
    by_cases hp : 0 < i
    · rw [if_pos hp, if_pos ⟨hr, hp⟩]
    · rw [if_neg hp, if_neg (fun hc => hp hc.2)]
  · rw [h1, if_neg hr]
    show (none : Option GoVal)
        = if (-(2 ^ 63) ≤ i ∧ i < 2 ^ 63) ∧ 0 < i then some (GoVal.int i) else none
    rw [if_neg (fun hc => hr hc.1)]

theorem extractValue_str (s : Str) :
    extractValue (.str s) false = if s = [] then none else some (.str s) := by
  by_cases hs : s = [] <;> simp [extractValue, asBool, asInt64, asString, hs]

theorem extractValue_scalar_none (v : CueVal) (h1 : asBool v = none)
    (h2 : asInt64 v = none) (h3 : asString v = none) :
    extractValue v false = none := by
  simp [extractValue, h1, h2, h3]

theorem Resolve_eq_of_lookup (doc : CueVal) (cmdPath : List Str) (flagName : Str)
    (isSlice : Bool) (v : CueVal)
    (h : lookupSegs doc ((resolverPath cmdPath flagName).splitOn '.') = some v) :
    Resolve doc cmdPath flagName isSlice = extractValue v isSlice := by
  rw [Resolve, h]

theorem Resolve_none_of_lookup (doc : CueVal) (cmdPath : List Str) (flagName : Str)
    (isSlice : Bool)
    (h : lookupSegs doc ((resolverPath cmdPath flagName).splitOn '.') = none) :
    Resolve doc cmdPath flagName isSlice = none := by
  rw [Resolve, h]

/-- Following the specification's words for the list-resolution contract
(C2): resolution of a list-expecting flag joins the scalar elements of the
stored sequence using the caller's configured multi-value separator, and
returns no override for an empty sequence. Stated over the elements as
strings, with the separator as a parameter, for comparison with the
implementation's `extractValue`. -/
def specListResolution (sep : Str) (elements : List Str) : Option GoVal :=
  if elements = [] then none
  else some (.str (List.intercalate sep elements))

/-- Counterexample for C2: the implementation does not use a caller-configured
separator — at separator `";"` and stored sequence `["a", "b"]` the code
produces `"a,b"` (hard-coded comma) where the claimed behaviour produces
`"a;b"`. -/
theorem extractValue_list_counterexample :
    ¬ ∀ (sep : Str) (vs : List Str),
        extractValue (.list (vs.map CueVal.str)) true = specListResolution sep vs := by
  intro h
  exact absurd (h (chars ";") [chars "a", chars "b"]) (by decide)

/-- C2 amended: for a list-expecting flag whose lookup path holds a sequence,
resolution joins the string elements with a hard-coded comma (non-string
elements are skipped), and returns no override when the sequence is empty or
has no string elements. -/
theorem resolve_list_flag (doc : CueVal) (cmdPath : List Str) (flagName : Str)
    (vs : List CueVal)
    (h : lookupSegs doc ((resolverPath cmdPath flagName).splitOn '.') = some (.list vs)) :
    Resolve doc cmdPath flagName true =
      (if vs.filterMap asString = [] then none
       else some (.str (List.intercalate [','] (vs.filterMap asString)))) := by
  rw [Resolve, h]
  rcases hi : vs.filterMap asString with _ | ⟨x, xs⟩
  · simp [extractValue, asList, hi]
  · rcases xs with _ | ⟨y, tl⟩
    · simp [extractValue, asList, hi, List.intercalate]
    · simp [extractValue, asList, hi]

/-- Concrete document used by resolver witnesses. -/
def exDoc : CueVal :=
  .record [(chars "agent",
    .record [(chars "ca_url", .str (chars "https://x")),
             (chars "match", .list [.str (chars "*.a"), .str (chars "*.b")]),
             (chars "debug", .bool false),
             (chars "port", .int 0),
             (chars "retries", .int (-2))])]

/-- Witness for C2 (amended) at a concrete input: the `match` sequence under
`agent` resolves to the comma-joined string. -/
theorem resolve_list_flag_witness :
    Resolve exDoc [chars "agent"] (chars "match") true
      = some (.str (chars "*.a,*.b")) := by
  have h := resolve_list_flag exDoc [chars "agent"] (chars "match")
    [.str (chars "*.a"), .str (chars "*.b")] rfl
  simpa using h

/-- C3: resolution of a boolean-expecting flag returns true exactly when the
stored value at the flag's lookup path is true; an absent path and a stored
false both yield no override. -/
theorem resolve_bool_flag (doc : CueVal) (cmdPath : List Str) (flagName : Str) :
    (Resolve doc cmdPath flagName false = some (.bool true) ↔
      lookupSegs doc ((resolverPath cmdPath flagName).splitOn '.')
        = some (.bool true)) ∧
    (lookupSegs doc ((resolverPath cmdPath flagName).splitOn '.')
        = some (.bool false) → Resolve doc cmdPath flagName false = none) ∧
    (lookupSegs doc ((resolverPath cmdPath flagName).splitOn '.') = none →
      Resolve doc cmdPath flagName false = none) := by
  refine ⟨⟨?_, ?_⟩, ?_, ?_⟩
  · intro hres
    rcases hl : lookupSegs doc ((resolverPath cmdPath flagName).splitOn '.') with _ | v
    · rw [Resolve_none_of_lookup _ _ _ _ hl] at hres
      exact absurd hres (by simp)
    · rw [Resolve_eq_of_lookup _ _ _ _ _ hl] at hres
      cases v with
      | bool b =>
        cases b
        · rw [extractValue_bool] at hres
          simp at hres
        · rfl
      | int i =>
        rw [extractValue_int] at hres
        split_ifs at hres
        simp at hres
      | str s =>
        rw [extractValue_str] at hres
        split_ifs at hres
        simp at hres
      | list xs =>
        rw [extractValue_scalar_none (CueVal.list xs) rfl rfl rfl] at hres
        exact absurd hres (by simp)
      | record fields =>
        rw [extractValue_scalar_none (CueVal.record fields) rfl rfl rfl] at hres
        exact absurd hres (by simp)
      | null =>
        rw [extractValue_scalar_none CueVal.null rfl rfl rfl] at hres
        exact absurd hres (by simp)
  · intro hl
    rw [Resolve_eq_of_lookup _ _ _ _ _ hl, extractValue_bool]
    simp
  · intro hl
    rw [Resolve_eq_of_lookup _ _ _ _ _ hl, extractValue_bool]
    simp
  · intro hl
    exact Resolve_none_of_lookup _ _ _ _ hl

/-- Witness for C3 at a concrete input: a stored `false` under `agent.debug`
and an absent `agent.verbose` both resolve to no override. -/
theorem resolve_bool_flag_witness :
    Resolve exDoc [chars "agent"] (chars "debug") false = none ∧
    Resolve exDoc [chars "agent"] (chars "verbose") false = none :=
  ⟨(resolve_bool_flag exDoc [chars "agent"] (chars "debug")).2.1 rfl,
   (resolve_bool_flag exDoc [chars "agent"] (chars "verbose")).2.2 rfl⟩

/-- C10: resolution of an integer-expecting flag returns the stored value
only when it is strictly positive; a stored zero and every stored negative
integer yield no override, so a configuration value can never force a flag
below its built-in default through zero or negative overrides. -/
theorem resolve_int_flag (doc : CueVal) (cmdPath : List Str) (flagName : Str)
    (i : Int)
    (h : lookupSegs doc ((resolverPath cmdPath flagName).splitOn '.') = some (.int i)) :
    (i ≤ 0 → Resolve doc cmdPath flagName false = none) ∧
    (∀ gv, Resolve doc cmdPath flagName false = some gv → 0 < i ∧ gv = .int i) := by
  constructor
  · intro hi
    rw [Resolve_eq_of_lookup _ _ _ _ _ h, extractValue_int, if_neg]
    exact fun hc => absurd hc.2 (by omega)
  · intro gv hres
    rw [Resolve_eq_of_lookup _ _ _ _ _ h, extractValue_int] at hres
    split_ifs at hres with h1
    cases hres
    exact ⟨h1.2, rfl⟩

/-- Witness for C10 at a concrete input: a stored zero (`agent.port`) and a
stored negative value (`agent.retries`) both resolve to no override. -/
theorem resolve_int_flag_witness :
    Resolve exDoc [chars "agent"] (chars "port") false = none ∧
    Resolve exDoc [chars "agent"] (chars "retries") false = none :=
  ⟨(resolve_int_flag exDoc [chars "agent"] (chars "port") 0 rfl).1 (by decide),
   (resolve_int_flag exDoc [chars "agent"] (chars "retries") (-2) rfl).1 (by decide)⟩

theorem optToList_eq_nil {α : Type} (o : Option α) : o.toList = [] ↔ o = none := by
  cases o <;> simp

/-- Shared reduction of the pre-resolution hook on a run that loads a
non-empty document and generates both schemas successfully: the result is
determined by the aggregated list of the first-pass failure (omitted when
unknown fields are allowed everywhere) followed by the second-pass failure. -/
theorem beforeResolve_run (opts : SchemaOptions) (e : EngineOutcome)
    (hload : e.loadResult = none) (hcfg : e.hasConfig = true)
    (hgen : e.genStrict = none) (hgenp : e.genPermissive = none) :
    BeforeResolve opts e =
      (if ((if opts.allowAll then [] else e.permissiveValidate.toList)
            ++ e.strictValidate.toList) = [] then ResolveSetup.bound e.mergedDoc
       else .validationFailure ((if opts.allowAll then [] else e.permissiveValidate.toList)
            ++ e.strictValidate.toList)) := by
  obtain ⟨lr, hc, gs, gp, pv, sv, rd, md⟩ := e
  simp only at hload hcfg hgen hgenp
  subst hload hcfg hgen hgenp
  by_cases ha : opts.allowAll <;>
    rcases pv with _ | p <;> rcases sv with _ | s <;>
      simp [BeforeResolve, ha]

/-- C6: on a loaded non-empty document (and successful schema generation)
both validation passes run without short-circuiting — the unknown-field pass
is skipped exactly when the policy allows unknown fields everywhere, the
strict pass always runs — and the failures of both passes are aggregated in
pass-1-then-pass-2 order with no cross-pass deduplication (both entries are
kept even when equal). -/
theorem beforeResolve_two_pass (opts : SchemaOptions) (e : EngineOutcome)
    (hload : e.loadResult = none) (hcfg : e.hasConfig = true)
    (hgen : e.genStrict = none) (hgenp : e.genPermissive = none) :
    BeforeResolve opts e =
      (let pass1 := if opts.allowAll then [] else e.permissiveValidate.toList
       let errs := pass1 ++ e.strictValidate.toList
       if errs = [] then ResolveSetup.bound e.mergedDoc
       else .validationFailure errs) :=
  beforeResolve_run opts e hload hcfg hgen hgenp

/-- Witness engine outcome where both validation passes fail. -/
def engineBothFail : EngineOutcome :=
  { loadResult := none, hasConfig := true, genStrict := none, genPermissive := none,
    permissiveValidate := some (chars "agent.bad: field not allowed"),
    strictValidate := some (chars "agent.ca_url: incomplete value"),
    rawDoc := .null, mergedDoc := .null }

/-- Witness engine outcome where only the strict pass fails. -/
def engineStrictFails : EngineOutcome :=
  { loadResult := none, hasConfig := true, genStrict := none, genPermissive := none,
    permissiveValidate := none,
    strictValidate := some (chars "verbose: conflicting values"),
    rawDoc := .null, mergedDoc := .null }

/-- Witness for C6 at a concrete input: when both passes fail, the hook
reports the first-pass failure followed by the second-pass failure. -/
theorem beforeResolve_two_pass_witness :
    BeforeResolve ⟨[], false, false⟩ engineBothFail
      = .validationFailure [chars "agent.bad: field not allowed",
          chars "agent.ca_url: incomplete value"] := by
  have h := beforeResolve_two_pass ⟨[], false, false⟩ engineBothFail rfl rfl rfl rfl
  simpa [engineBothFail] using h

/-- C9: on a loaded non-empty document (with schema generation succeeding),
if either validation pass fails the hook returns the aggregated failure list
and binds nothing; a bound document is produced exactly when the strict pass
succeeds and the unknown-field pass either was skipped or succeeded, and the
bound document is the document unified with the strict schema. -/
theorem beforeResolve_all_or_nothing (opts : SchemaOptions) (e : EngineOutcome)
    (hload : e.loadResult = none) (hcfg : e.hasConfig = true)
    (hgen : e.genStrict = none) (hgenp : e.genPermissive = none) :
    (((opts.allowAll = false ∧ e.permissiveValidate ≠ none) ∨ e.strictValidate ≠ none) →
      BeforeResolve opts e = .validationFailure
        ((if opts.allowAll then [] else e.permissiveValidate.toList)
          ++ e.strictValidate.toList)) ∧
    (∀ doc, BeforeResolve opts e = ResolveSetup.bound doc →
      (opts.allowAll = true ∨ e.permissiveValidate = none) ∧
        e.strictValidate = none ∧ doc = e.mergedDoc) := by
  have hrun := beforeResolve_run opts e hload hcfg hgen hgenp
  constructor
  · intro hfail
    rw [hrun, if_neg]
    rcases hfail with ⟨ha, hp⟩ | hs
    · simp [ha]
      intro h1 h2
      exact absurd ((optToList_eq_nil _).mp h1) hp
    · intro hn
      rcases List.append_eq_nil.mp hn with ⟨-, h2⟩
      exact hs ((optToList_eq_nil _).mp h2)
  · intro doc hb
    rw [hrun] at hb
    by_cases hn : ((if opts.allowAll then [] else e.permissiveValidate.toList)
        ++ e.strictValidate.toList) = []
    · rw [if_pos hn] at hb
      cases hb
      rcases List.append_eq_nil.mp hn with ⟨h1, h2⟩
      refine ⟨?_, (optToList_eq_nil _).mp h2, rfl⟩
      by_cases ha : opts.allowAll
      · exact Or.inl ha
      · rw [if_neg ha] at h1
        exact Or.inr ((optToList_eq_nil _).mp h1)
    · rw [if_neg hn] at hb
      exact absurd hb (by simp)

/-- Witness for C9 at a concrete input: a strict-pass failure makes the hook
return the aggregated failure (no document is bound). -/
theorem beforeResolve_all_or_nothing_witness :
    BeforeResolve ⟨[], false, false⟩ engineStrictFails
      = .validationFailure [chars "verbose: conflicting values"] := by
  have h := (beforeResolve_all_or_nothing ⟨[], false, false⟩ engineStrictFails
    rfl rfl rfl rfl).1 (Or.inr (by simp [engineStrictFails]))
  simpa [engineStrictFails] using h

/-- C1 amended: schema generation is a total function with no error outcome
(faithful to the Go signature of `GenerateSchemaFile`, which returns only an
AST), and on a definition-name collision the definition collected later in
traversal order silently overwrites the earlier one — the definitions map
binds every name to the definition of the last command path, in preorder
traversal order, whose computed PascalCase name is that name. -/
theorem collectCommandDefinitions_last_wins (root : KNode) (opts : SchemaOptions)
    (k : Str) :
    mapFind (collectCommandDefinitions root [] [] opts) k
      = lastAssoc k (enumDefs root [] opts) := by
  rw [collectCommandDefinitions_eq_foldl, mapFind_foldl_insert]
  cases lastAssoc k (enumDefs root [] opts) <;> simp [mapFind]

/-- Command node `foo-bar` used by the collision counterexample. -/
def fooBarHyphen : KNode :=
  .mk (chars "foo-bar") .command
    [{ name := chars "aa", help := [], hidden := false, required := false,
       value := .scalar .string }]
    [] [] false

/-- Command node `foo_bar` used by the collision counterexample; its
PascalCase name collides with `foo-bar`. -/
def fooBarUnder : KNode :=
  .mk (chars "foo_bar") .command
    [{ name := chars "bb", help := [], hidden := false, required := false,
       value := .scalar .string }]
    [] [] false

/-- Root with two distinct command paths whose computed names collide. -/
def collideRoot : KNode := .mk [] .other [] [fooBarHyphen, fooBarUnder] [] false

/-- Counterexample for C1: the distinct command paths `foo-bar` and `foo_bar`
compute the same definition name `FooBar`, their definitions differ, and
schema generation — whose type has no error outcome — keeps only the later
definition: the collected map holds a single binding (the later one) and the
emitted file holds a single `#FooBar` definition, so the earlier definition
was silently overwritten instead of any collision error being reported. -/
theorem collectCommandDefinitions_collision_counterexample :
    commandDefName [chars "foo-bar"] = commandDefName [chars "foo_bar"] ∧
    (chars "foo-bar" : Str) ≠ chars "foo_bar" ∧
    buildCommandDef fooBarHyphen [chars "foo-bar"] opts0
      ≠ buildCommandDef fooBarUnder [chars "foo_bar"] opts0 ∧
    collectCommandDefinitions collideRoot [] [] opts0
      = [(chars "FooBar", buildCommandDef fooBarUnder [chars "foo_bar"] opts0)] ∧
    (GenerateSchemaFile collideRoot opts0).map TopDecl.label
      = [chars "#Root", chars "#FooBar"] := by
  decide

/-- Auxiliary for C4: the labels of the emitted definition section are the
hash-prefixed names, provided every name finds a binding in the map. -/
theorem emit_labels_aux (m : GoMap CommandDef) (opts : SchemaOptions) :
    ∀ l : List Str, (∀ n ∈ l, (mapFind m n).isSome) →
      ((l.filterMap fun name => (mapFind m name).map fun d =>
        ({ label := '#' :: name, value := defBody opts d.path d.elts } : TopDecl)).map
          TopDecl.label) = l.map fun n => '#' :: n := by
  intro l
  induction l with
  | nil => simp
  | cons a l ih =>
    intro h
    have ha := h a (List.mem_cons_self a l)
    obtain ⟨d, hd⟩ := Option.isSome_iff_exists.mp ha
    simp only [List.filterMap_cons, hd, Option.map_some', List.map_cons]
    rw [ih (fun n hn => h n (List.mem_cons_of_mem _ hn))]

/-- C4: the generated schema file lists the root definition first, followed
by the command definitions in lexicographically sorted name order; and the
emission depends only on the extensional content of the definitions map, not
on the order of its backing entries (so repeated generation from the same
command tree reproduces the same schema document even though Go map
iteration order varies — the serialisation of the AST by the external
formatter is deterministic and out of scope). -/
theorem generateSchemaFile_deterministic (root : KNode) (opts : SchemaOptions) :
    ((GenerateSchemaFile root opts).map TopDecl.label
      = chars "#Root"
        :: (sortedKeys (collectCommandDefinitions root [] [] opts)).map
            (fun n => '#' :: n)) ∧
    List.Sorted (· ≤ ·) (sortedKeys (collectCommandDefinitions root [] [] opts)) ∧
    (∀ m, m.Perm (collectCommandDefinitions root [] [] opts) →
      (m.map Prod.fst).Nodup →
        emitSchemaFile root m opts = GenerateSchemaFile root opts) := by
  refine ⟨?_, ?_, ?_⟩
  · rw [GenerateSchemaFile, emitSchemaFile]
    simp only [List.map_cons]
    congr 1
    refine emit_labels_aux _ _ _ (fun n hn => mem_keys_isSome _ _ ?_)
    rw [sortedKeys] at hn
    exact (List.mem_insertionSort _).mp hn
  · exact List.sorted_insertionSort _ _
  · intro m hperm hnodup
    rw [GenerateSchemaFile, emitSchemaFile, emitSchemaFile]
    have hkeys : sortedKeys m = sortedKeys (collectCommandDefinitions root [] [] opts) := by
      refine List.eq_of_perm_of_sorted ?_
        (List.sorted_insertionSort _ _) (List.sorted_insertionSort _ _)
      exact ((List.perm_insertionSort _ _).trans (hperm.map Prod.fst)).trans
        (List.perm_insertionSort _ _).symm
    have hfun : (fun name => (mapFind m name).map fun d =>
          ({ label := '#' :: name, value := defBody opts d.path d.elts } : TopDecl))
        = fun name => (mapFind (collectCommandDefinitions root [] [] opts) name).map fun d =>
          ({ label := '#' :: name, value := defBody opts d.path d.elts } : TopDecl) :=
      funext fun n => by rw [mapFind_of_perm hperm hnodup n]
    rw [hkeys, hfun]

/-- Witness for C4 at a concrete input: emitting from the collected map (the
identity permutation of the backing list) reproduces the generated file. -/
theorem generateSchemaFile_deterministic_witness :
    emitSchemaFile exTree (collectCommandDefinitions exTree [] [] opts0) opts0
      = GenerateSchemaFile exTree opts0 :=
  (generateSchemaFile_deterministic exTree opts0).2.2
    (collectCommandDefinitions exTree [] [] opts0) (List.Perm.refl _) (by decide)

end Kongcue
